import Mathlib

/-!
Verification of the character-level n-gram language model of
`src/lm/ngram_model.py` and of the pruning utility
`scripts/prune_checkpoint.py`.

Python `dict` / `collections.Counter` objects are embedded as association
lists that keep insertion order (Python dicts preserve insertion order);
keys are unique in every dict the program can build, and the embedding's
update functions (`setA`, `bump`) reproduce Python's assignment semantics
(update in place, or append a fresh key at the end).  Floating point
scores are embedded as exact rationals; the spec only constrains rank
order of distinct scores, which agrees.  Python's `list.sort` /
`Counter.most_common` are stable; they are embedded by the stable
insertion sort `sortDesc` below.
-/

namespace NGram

/-- Characters the model never counts or returns (`("\n", "\r")` tuples in
the source). -/
def isTerm (c : Char) : Bool := c = '\n' || c = '\r'

/-- Dict lookup (`d.get(k)` / `d[k]` read): first binding of the key, if any. -/
def getA {α β : Type} [DecidableEq α] : List (α × β) → α → Option β
  | [], _ => none
  | (a, b) :: r, x => if a = x then some b else getA r x

/-- Dict assignment `d[k] = v`: update the first binding in place, else
append the new key at the end (Python insertion-order semantics). -/
def setA {α β : Type} [DecidableEq α] : List (α × β) → α → β → List (α × β)
  | [], x, v => [(x, v)]
  | (a, b) :: r, x, v => if a = x then (a, v) :: r else (a, b) :: setA r x v

/-- Counter increment `c[k] += d` (a missing key counts as zero and is
appended at the end, as in `collections.Counter`). -/
def bump {α : Type} [DecidableEq α] : List (α × Int) → α → Int → List (α × Int)
  | [], x, d => [(x, d)]
  | (a, n) :: r, x, d => if a = x then (a, n + d) :: r else (a, n) :: bump r x d

/-- Stable descending insertion: `x` goes after every element whose key is
at least as large, matching Python's stable sort with `reverse=True`. -/
def insD {α β : Type} [LinearOrder β] (f : α → β) (x : α) : List α → List α
  | [] => [x]
  | y :: ys => if f x ≤ f y then y :: insD f x ys else x :: y :: ys

/-- Stable sort, descending by key `f` (embeds `sorted(..., reverse=True)`
and `Counter.most_common`'s ordering). -/
def sortDesc {α β : Type} [LinearOrder β] (f : α → β) (l : List α) : List α :=
  l.foldl (fun acc x => insD f x acc) []

/-- Python slice `l[:n]` for an `int` bound: a non-negative bound keeps the
first `n` elements, a negative bound drops the last `-n`. -/
def pySlice {α : Type} (n : Int) (l : List α) : List α :=
  if 0 ≤ n then l.take n.toNat else l.take (l.length + n).toNat

/-- `sum(counts.values())`. -/
def totalOf (e : List (Char × Int)) : Int := e.foldl (fun a p => a + p.2) 0

/-- `Counter.most_common(n)`: all items stably sorted by count descending,
then the first `n` (a non-positive `n` yields the empty list, as in
`heapq.nlargest`). -/
def mostCommon (n : Int) (e : List (Char × Int)) : List (Char × Int) :=
  (sortDesc (fun p => p.2) e).take n.toNat

/-- `Counter.most_common()` with no bound: all items, stably sorted by
count descending. -/
def mostCommonAll (e : List (Char × Int)) : List (Char × Int) :=
  sortDesc (fun p => p.2) e

/-- A context entry: next-character → count, in insertion order. -/
abbrev Entry := List (Char × Int)

/-- The context-count table: context → next-character counts. -/
abbrev Table := List (List Char × Entry)

/-- Modelled from the spec: `text_utils.normalize_text` is imported by
`ngram_model.py` but `text_utils.py` is not part of the sources; §4.1
specifies a deterministic pure cleanup that collapses embedded
newlines/carriage returns and runs of whitespace to single spaces and
trims leading/trailing whitespace (canonical unicode composition is the
identity on the ASCII data used below). -/
def normalizeChars : List Char → List Char
  | [] => []
  | [c] => if c.isWhitespace then [] else [c]
  | c :: d :: r =>
    if c.isWhitespace then
      if d.isWhitespace then normalizeChars (d :: r)
      else ' ' :: normalizeChars (d :: r)
    else c :: normalizeChars (d :: r)

/-- Modelled from the spec: whitespace runs collapse because
`normalizeChars` emits one space per maximal run; the leading trim is the
`dropWhile`, the trailing trim is the singleton-whitespace case above. -/
def normalize_text (s : String) : List Char :=
  normalizeChars (s.toList.dropWhile Char.isWhitespace)

/-- The `__init__` constant `default_chars` list. -/
def initDefaultChars : List Char := [' ', '.', ',', '。', '،', '।', '，', '・', '-']

/-- The state of a `CharNGramLanguageModel`: hyperparameters and tables,
as held by `__init__` / mutated by `fit`. -/
structure Model where
  ngram_order : Int
  laplace_alpha : ℚ
  max_chars_per_context : Int
  min_context_count : Int
  max_contexts : Int
  kn_discount : ℚ
  context_counts : Table
  unigram : List (Char × Int)
  continuation_counts : List (Char × Int)
  total_bigram_types : Int
  default_chars : List Char
deriving DecidableEq, Repr

/-- `CharNGramLanguageModel(...)` with every constructor default. -/
def initModel : Model :=
  { ngram_order := 6, laplace_alpha := 1, max_chars_per_context := 64,
    min_context_count := 3, max_contexts := 1000000, kn_discount := 3 / 4,
    context_counts := [], unigram := [], continuation_counts := [],
    total_bigram_types := 0, default_chars := initDefaultChars }

/-- `_trim_context_tables`, acting on the context table: drop contexts with
total below `min_context_count`, stably rank the rest by total descending,
cap to `max_contexts` when that is positive, truncate every kept context
to its `max_chars_per_context` most common characters, and drop a context
whose truncation is empty. -/
def trimTable (minC maxCtx maxChars : Int) (tbl : Table) : Table :=
  let ranked := tbl.filter (fun p => decide (minC ≤ totalOf p.2))
  let ranked := sortDesc (fun p => totalOf p.2) ranked
  let ranked := if 0 < maxCtx then ranked.take maxCtx.toNat else ranked
  ranked.filterMap (fun p =>
    let t := mostCommon maxChars p.2
    if t = [] then none else some (p.1, t))

/-- `self._trim_context_tables()` on the model. -/
def modelTrim (m : Model) : Model :=
  { m with context_counts :=
      trimTable m.min_context_count m.max_contexts m.max_chars_per_context m.context_counts }

/-- First-occurrence deduplication (the `seen` set loop in
`_refresh_default_chars`). -/
def dedupGo (seen : List Char) : List Char → List Char
  | [] => []
  | c :: r => if c ∈ seen then dedupGo seen r else c :: dedupGo (c :: seen) r

/-- `_refresh_default_chars`. -/
def refreshDefaults (m : Model) : Model :=
  if m.unigram = [] then m
  else
    let freq := ((mostCommon m.max_chars_per_context m.unigram).map Prod.fst).filter
      (fun c => !(isTerm c))
    { m with default_chars := dedupGo [] (freq ++ m.default_chars) }

/-- `self.context_counts[context][next_char] += 1` on the
`defaultdict(Counter)`: a missing context is created (appended at the
end) holding the single incremented character. -/
def bumpTable (t : Table) (k : List Char) (c : Char) : Table :=
  match getA t k with
  | some e => setA t k (bump e c 1)
  | none => t ++ [(k, bump [] c 1)]

/-- The inner `for left in range(start, idx)` loop of `fit`: count every
trailing context of length `1 .. min(ngram_order − 1, idx)` before
position `idx`. -/
def addContexts (tbl : Table) (seq : List Char) (idx : Nat) (maxContext : Int) (c : Char) :
    Table :=
  let start : Nat := (max 0 ((idx : Int) - maxContext)).toNat
  ((List.range idx).drop start).foldl (fun t left =>
    let context := (seq.drop left).take (idx - left)
    if context = [] then t else bumpTable t context c) tbl

/-- One line of `fit`: the per-position loop, threading the model tables
and the `unique_bigrams` set (embedded as a duplicate-free list). -/
def fitLine (st : Model × List (Char × Char)) (line : String) : Model × List (Char × Char) :=
  let seq := normalize_text line
  (List.range seq.length).foldl (fun st idx =>
    let m := st.1
    let bg := st.2
    let c := seq.getD idx ' '
    if isTerm c then (m, bg) else
    let m := { m with unigram := bump m.unigram c 1 }
    let m := { m with context_counts := addContexts m.context_counts seq idx (m.ngram_order - 1) c }
    if 0 < idx then
      let lc := seq.getD (idx - 1) ' '
      if isTerm lc then (m, bg)
      else if (lc, c) ∈ bg then (m, bg)
      else ({ m with continuation_counts := bump m.continuation_counts c 1 }, bg ++ [(lc, c)])
    else (m, bg)) st

/-- `fit(lines)`: one pass over the lines, then set `total_bigram_types`,
trim, and refresh the fallback characters. -/
def fit (m : Model) (lines : List String) : Model :=
  let st := lines.foldl fitLine (m, [])
  refreshDefaults (modelTrim { st.1 with total_bigram_types := (st.2.length : Int) })

/-- Running score vectors (`Counter` of floats, embedded with ℚ values). -/
abbrev Scores := List (Char × ℚ)

/-- `scores.get(char, 0.0)`. -/
def getQ (s : Scores) (c : Char) : ℚ := (getA s c).getD 0

/-- `_kn_unigram_scores`: the order-0 continuation distribution, or the
Laplace unigram distribution when no bigram type was observed. -/
def kn_unigram_scores (m : Model) : Scores :=
  if 0 < m.total_bigram_types then
    let vocab : Int := max 1 (m.continuation_counts.length : Int)
    let denom : ℚ := (m.total_bigram_types : ℚ) + m.laplace_alpha * (vocab : ℚ)
    m.continuation_counts.foldl (fun sc p =>
      if isTerm p.1 then sc else setA sc p.1 (((p.2 : ℚ) + m.laplace_alpha) / denom)) []
  else
    let t : Int := totalOf m.unigram
    let vocab : Int := max 1 (m.unigram.length : Int)
    m.unigram.foldl (fun sc p =>
      if isTerm p.1 then sc
      else setA sc p.1 (((p.2 : ℚ) + m.laplace_alpha) / ((t : ℚ) + m.laplace_alpha * (vocab : ℚ)))) []

/-- The body of the `for ctx_len in range(...)` loop of `predict_top_k`
once an entry was found: skip empty or non-positive-total entries, else
discount, compute the back-off weight, and blend with the running scores.
The union of the level and score keys is traversed level-keys first (the
source iterates a Python set union, whose order is unspecified). -/
def knStep (D : ℚ) (e : Entry) (sc : Scores) : Scores :=
  if e = [] then sc else
  let total := totalOf e
  if total ≤ 0 then sc else
  let lam : ℚ := D * (e.length : ℚ) / (total : ℚ)
  let level : Scores := e.foldl (fun lv p =>
    if isTerm p.1 then lv else setA lv p.1 (max ((p.2 : ℚ) - D) 0 / (total : ℚ))) []
  let uni : List Char :=
    level.map Prod.fst ++ (sc.map Prod.fst).filter (fun c => !((level.map Prod.fst).contains c))
  uni.foldl (fun b c => setA b c (getQ level c + lam * getQ sc c)) []

/-- One `ctx_len` iteration of the `predict_top_k` loop: look up the
trailing context (a plain `.get`) and step the score vector. -/
def ctxStep (tbl : Table) (D : ℚ) (seq : List Char) (ctxLen : Nat) (sc : Scores) : Scores :=
  match getA tbl (seq.drop (seq.length - ctxLen)) with
  | none => sc
  | some e => knStep D e sc

/-- The final score vector of `predict_top_k` before ranking. -/
def finalScores (m : Model) (text : String) : Scores :=
  let seq := normalize_text text
  let nCtx : Nat := (min (m.ngram_order - 1) (seq.length : Int)).toNat
  (List.range nCtx).foldl (fun sc i => ctxStep m.context_counts m.kn_discount seq (i + 1) sc)
    (kn_unigram_scores m)

/-- `scores.most_common()`: stable descending sort by score. -/
def sortScores (s : Scores) : Scores := sortDesc (fun p => p.2) s

/-- The first guessing loop of `predict_top_k`: walk the ranked scores,
skip line terminators, append unseen characters, stop at `k`. -/
def pickScored (k : Nat) (acc : List Char) : List (Char × ℚ) → List Char
  | [] => acc
  | (c, _) :: rest =>
    if isTerm c then pickScored k acc rest
    else
      let acc2 := if c ∈ acc then acc else acc ++ [c]
      if acc2.length = k then acc2 else pickScored k acc2 rest

/-- The fallback loop of `predict_top_k`: append unseen non-terminator
default characters, stop at `k`. -/
def pickDefaults (k : Nat) (acc : List Char) : List Char → List Char
  | [] => acc
  | c :: rest =>
    let acc2 := if c ∉ acc ∧ isTerm c = false then acc ++ [c] else acc
    if acc2.length = k then acc2 else pickDefaults k acc2 rest

/-- The guess list after the scored loop. -/
def guessesScored (m : Model) (text : String) (k : Nat) : List Char :=
  pickScored k [] (sortScores (finalScores m text))

/-- The guess list after the fallback loop (entered only while short). -/
def guessesWithDefaults (m : Model) (text : String) (k : Nat) : List Char :=
  let g := guessesScored m text k
  if g.length < k then pickDefaults k g m.default_chars else g

/-- `predict_top_k(text, k)`: space-pad to `k` and slice. -/
def predict_top_k (m : Model) (text : String) (k : Nat) : List Char :=
  let g := guessesWithDefaults m text k
  (g ++ List.replicate (k - g.length) ' ').take k

/-- The `except` branch of `predict_batch`: `default_chars[:k]` padded
with spaces to length `k`. -/
def fallbackGuess (m : Model) (k : Nat) : List Char :=
  let t := m.default_chars.take k
  t ++ List.replicate (k - t.length) ' '

/-- `predict_batch` over an explicit per-input scorer: `.error` is the
shallow embedding of `predict_top_k` raising, handled by the
`try/except` with the fallback result. -/
def predictBatchWith (m : Model) (score : String → Except Unit (List Char))
    (inputs : List String) (k : Nat) : List String :=
  inputs.map (fun line =>
    match score line with
    | .ok g => String.mk g
    | .error _ => String.mk (fallbackGuess m k))

/-- `predict_batch(inputs, k)`: in the embedding `predict_top_k` is total,
so every input takes the `try` branch. -/
def predict_batch (m : Model) (inputs : List String) (k : Nat) : List String :=
  predictBatchWith m (fun line => .ok (predict_top_k m line k)) inputs k

/-- A checkpoint payload: the pickled dict written by `save`.  Every field
is optional because `load` reads each one with `payload.get(...)`; a
`none` embeds a key absent from an older artifact. -/
structure Payload where
  ngram_order : Option Int
  laplace_alpha : Option ℚ
  max_chars_per_context : Option Int
  min_context_count : Option Int
  max_contexts : Option Int
  kn_discount : Option ℚ
  context_counts : Option Table
  unigram : Option (List (Char × Int))
  continuation_counts : Option (List (Char × Int))
  total_bigram_types : Option Int
  default_chars : Option (List Char)
deriving DecidableEq, Repr

/-- The payload with every key absent. -/
def emptyPayload : Payload :=
  ⟨none, none, none, none, none, none, none, none, none, none, none⟩

/-- `save(work_dir)`: the payload dict that is pickled (the gzip/pickle
byte codec is a faithful bijection and is not modelled). -/
def save (m : Model) : Payload :=
  { ngram_order := some m.ngram_order, laplace_alpha := some m.laplace_alpha,
    max_chars_per_context := some m.max_chars_per_context,
    min_context_count := some m.min_context_count, max_contexts := some m.max_contexts,
    kn_discount := some m.kn_discount, context_counts := some m.context_counts,
    unigram := some m.unigram, continuation_counts := some m.continuation_counts,
    total_bigram_types := some m.total_bigram_types, default_chars := some m.default_chars }

/-- `load(work_dir)`: rebuild the model, substituting the constructor
default for every absent field; the context table is rebuilt entry by
entry into a fresh `defaultdict` (dict-assignment semantics). -/
def load (p : Payload) : Model :=
  { ngram_order := p.ngram_order.getD 6,
    laplace_alpha := p.laplace_alpha.getD 1,
    max_chars_per_context := p.max_chars_per_context.getD 64,
    min_context_count := p.min_context_count.getD 3,
    max_contexts := p.max_contexts.getD 1000000,
    kn_discount := p.kn_discount.getD (3 / 4),
    context_counts := (p.context_counts.getD []).foldl (fun t q => setA t q.1 q.2) [],
    unigram := p.unigram.getD [],
    continuation_counts := p.continuation_counts.getD [],
    total_bigram_types := p.total_bigram_types.getD 0,
    default_chars := p.default_chars.getD initDefaultChars }

/-- `scripts/prune_checkpoint.py`, `main`: the transformation applied to
the payload's context table.  Unlike `_trim_context_tables`, the cap is
applied by the unguarded slice `ranked[:max_contexts]`. -/
def prunePayload (minC maxCtx maxChars : Int) (tbl : Table) : Table :=
  let ranked := tbl.filter (fun p => !p.2.isEmpty && decide (minC ≤ totalOf p.2))
  let ranked := sortDesc (fun p => totalOf p.2) ranked
  let ranked := pySlice maxCtx ranked
  ranked.filterMap (fun p =>
    let t := mostCommon maxChars p.2
    if t = [] then none else some (p.1, t))

/-- A dict/`defaultdict` read through `.get`: returns the binding without
inserting a default entry (only `__getitem__` would insert). -/
def dictGet (t : Table) (k : List Char) : Table × Option Entry := (t, getA t k)

/-- One `ctx_len` iteration of the `predict_top_k` loop with the table
state threaded through the `.get` access. -/
def ctxStepS (D : ℚ) (seq : List Char) (st : Table × Scores) (ctxLen : Nat) : Table × Scores :=
  let r := dictGet st.1 (seq.drop (seq.length - ctxLen))
  match r.2 with
  | none => (r.1, st.2)
  | some e => (r.1, knStep D e st.2)

/-- `predict_top_k` with the model state threaded explicitly through
every table access, to make the absence of mutation provable: the result
model is rebuilt from the threaded table. -/
def predictTopKS (m : Model) (text : String) (k : Nat) : Model × List Char :=
  let seq := normalize_text text
  let nCtx : Nat := (min (m.ngram_order - 1) (seq.length : Int)).toNat
  let res := (List.range nCtx).foldl (fun st i => ctxStepS m.kn_discount seq st (i + 1))
    (m.context_counts, kn_unigram_scores m)
  let g := pickScored k [] (sortScores res.2)
  let g := if g.length < k then pickDefaults k g m.default_chars else g
  ({ m with context_counts := res.1 }, (g ++ List.replicate (k - g.length) ' ').take k)

/-- `predict_batch` with the model state threaded through every call. -/
def predictBatchS (m : Model) (inputs : List String) (k : Nat) : Model × List String :=
  inputs.foldl (fun st line =>
    let r := predictTopKS st.1 line k
    (r.1, st.2 ++ [String.mk r.2])) (m, [])

/-! ### General lemmas about the embedding's list primitives -/

theorem insD_perm {α β : Type} [LinearOrder β] (f : α → β) (x : α) (l : List α) :
    List.Perm (insD f x l) (x :: l) := by
  induction l with
  | nil => simp [insD]
  | cons y ys ih =>
    simp only [insD]
    split
    · exact (ih.cons y).trans (List.Perm.swap x y ys)
    · exact List.Perm.refl _

theorem foldl_insD_perm {α β : Type} [LinearOrder β] (f : α → β) (l : List α) :
    ∀ acc : List α, List.Perm (l.foldl (fun acc x => insD f x acc) acc) (acc ++ l) := by
  induction l with
  | nil => intro acc; simp
  | cons x xs ih =>
    intro acc
    simp only [List.foldl_cons]
    exact (ih (insD f x acc)).trans
      (((insD_perm f x acc).append_right xs).trans List.perm_middle.symm)

theorem sortDesc_perm {α β : Type} [LinearOrder β] (f : α → β) (l : List α) :
    List.Perm (sortDesc f l) l := by
  simpa using foldl_insD_perm f l []

theorem getA_eq_none_iff {α β : Type} [DecidableEq α] {l : List (α × β)} {a : α} :
    getA l a = none ↔ a ∉ l.map Prod.fst := by
  induction l with
  | nil => simp [getA]
  | cons p r ih =>
    simp only [getA, List.map_cons, List.mem_cons]
    split
    · simp_all
    · simp_all [eq_comm]

theorem getA_some_mem {α β : Type} [DecidableEq α] {l : List (α × β)} {a : α} {b : β}
    (h : getA l a = some b) : (a, b) ∈ l := by
  induction l with
  | nil => simp [getA] at h
  | cons p r ih =>
    simp only [getA] at h
    split at h
    · cases h
      simp_all [Prod.ext_iff]
    · exact List.mem_cons_of_mem _ (ih h)

theorem mem_getA_of_nodup {α β : Type} [DecidableEq α] {l : List (α × β)}
    (hn : (l.map Prod.fst).Nodup) {a : α} {b : β} (h : (a, b) ∈ l) : getA l a = some b := by
  induction l with
  | nil => simp at h
  | cons p r ih =>
    simp only [List.map_cons, List.nodup_cons] at hn
    rcases List.mem_cons.mp h with h1 | h1
    · simp [getA, ← h1]
    · have hne : p.1 ≠ a := by
        intro he
        exact hn.1 (he ▸ List.mem_map_of_mem Prod.fst h1)
      simp [getA, hne, ih hn.2 h1]

theorem getA_eq_of_perm {α β : Type} [DecidableEq α] {l1 l2 : List (α × β)}
    (hp : List.Perm l1 l2) (hn : (l2.map Prod.fst).Nodup) (a : α) :
    getA l1 a = getA l2 a := by
  cases h : getA l1 a with
  | none =>
    have := getA_eq_none_iff.mp h
    rw [eq_comm, getA_eq_none_iff]
    exact fun hm => this (((hp.map Prod.fst).mem_iff).mpr hm)
  | some b =>
    exact (mem_getA_of_nodup hn (hp.mem_iff.mp (getA_some_mem h))).symm

theorem getA_map_snd {α β γ : Type} [DecidableEq α] (f : β → γ) (l : List (α × β)) (a : α) :
    getA (l.map (fun p => (p.1, f p.2))) a = (getA l a).map f := by
  induction l with
  | nil => simp [getA]
  | cons p r ih =>
    simp only [List.map_cons, getA]
    split <;> simp_all

theorem setA_of_not_mem {α β : Type} [DecidableEq α] {l : List (α × β)} {a : α}
    (h : a ∉ l.map Prod.fst) (v : β) : setA l a v = l ++ [(a, v)] := by
  induction l with
  | nil => rfl
  | cons p r ih =>
    simp only [List.map_cons, List.mem_cons] at h
    push_neg at h
    simp [setA, Ne.symm h.1, ih h.2]

/-- A fold of dict assignments over fresh, pairwise-distinct keys appends
the bindings in order. -/
theorem foldl_setA_gen {α β : Type} [DecidableEq α] (l : List (α × β)) :
    ∀ acc : List (α × β), (l.map Prod.fst).Nodup →
      (∀ x ∈ l.map Prod.fst, x ∉ acc.map Prod.fst) →
      l.foldl (fun t q => setA t q.1 q.2) acc = acc ++ l := by
  induction l with
  | nil => intro acc _ _; simp
  | cons p r ih =>
    intro acc hn hd
    simp only [List.map_cons, List.nodup_cons] at hn
    have hp1 : p.1 ∉ acc.map Prod.fst := hd p.1 (by simp)
    simp only [List.foldl_cons, setA_of_not_mem hp1]
    rw [ih (acc ++ [(p.1, p.2)]) hn.2]
    · simp
    · intro x hx
      simp only [List.map_append, List.mem_append]
      push_neg
      constructor
      · exact hd x (by simp [hx])
      · intro hc
        simp only [List.map_cons, List.map_nil, List.mem_singleton] at hc
        exact hn.1 (hc ▸ hx)

theorem totalOf_eq_sum (e : Entry) : totalOf e = (e.map (fun p => p.2)).sum := by
  have h : ∀ (l : List (Char × Int)) (n : Int),
      l.foldl (fun a p => a + p.2) n = n + (l.map (fun p => p.2)).sum := by
    intro l
    induction l with
    | nil => intro n; simp
    | cons p r ih => intro n; simp [ih, add_assoc]
  simpa [totalOf] using h e 0

theorem totalOf_pos {e : Entry} (hne : e ≠ []) (hpos : ∀ p ∈ e, 1 ≤ p.2) :
    0 < totalOf e := by
  rw [totalOf_eq_sum]
  cases e with
  | nil => exact absurd rfl hne
  | cons p r =>
    simp only [List.map_cons, List.sum_cons]
    have h1 : 1 ≤ p.2 := hpos p (by simp)
    have h2 : 0 ≤ (r.map (fun p => p.2)).sum := by
      apply List.sum_nonneg
      intro x hx
      rcases List.mem_map.mp hx with ⟨q, hq, rfl⟩
      exact le_trans (by norm_num) (hpos q (by simp [hq]))
    linarith

/-! ### The guessing loops of `predict_top_k` -/

theorem pickScored_noTerm (k : Nat) (l : List (Char × ℚ)) :
    ∀ acc : List Char, (∀ c ∈ acc, isTerm c = false) →
      ∀ c ∈ pickScored k acc l, isTerm c = false := by
  induction l with
  | nil => intro acc h; simpa [pickScored] using h
  | cons p rest ih =>
    obtain ⟨c0, q0⟩ := p
    intro acc h c hc
    simp only [pickScored] at hc
    split at hc
    · exact ih acc h c hc
    · rename_i hterm
      by_cases hmem : c0 ∈ acc
      · simp only [if_pos hmem] at hc
        split at hc
        · exact h c hc
        · exact ih acc h c hc
      · simp only [if_neg hmem] at hc
        have h2 : ∀ x ∈ acc ++ [c0], isTerm x = false := by
          intro x hx
          rcases List.mem_append.mp hx with h3 | h3
          · exact h x h3
          · simp only [List.mem_singleton] at h3
            subst h3
            simpa using hterm
        split at hc
        · exact h2 c hc
        · exact ih _ h2 c hc

theorem pickScored_nodup (k : Nat) (l : List (Char × ℚ)) :
    ∀ acc : List Char, acc.Nodup → (pickScored k acc l).Nodup := by
  induction l with
  | nil => intro acc h; simpa [pickScored] using h
  | cons p rest ih =>
    obtain ⟨c0, q0⟩ := p
    intro acc h
    simp only [pickScored]
    split
    · exact ih acc h
    · by_cases hmem : c0 ∈ acc
      · simp only [if_pos hmem]
        split
        · exact h
        · exact ih acc h
      · simp only [if_neg hmem]
        have h2 : (acc ++ [c0]).Nodup := by simp [List.nodup_append, h, hmem]
        split
        · exact h2
        · exact ih _ h2

theorem pickDefaults_noTerm (k : Nat) (l : List Char) :
    ∀ acc : List Char, (∀ c ∈ acc, isTerm c = false) →
      ∀ c ∈ pickDefaults k acc l, isTerm c = false := by
  induction l with
  | nil => intro acc h; simpa [pickDefaults] using h
  | cons c0 rest ih =>
    intro acc h c hc
    simp only [pickDefaults] at hc
    by_cases hcond : c0 ∉ acc ∧ isTerm c0 = false
    · simp only [if_pos hcond] at hc
      have h2 : ∀ x ∈ acc ++ [c0], isTerm x = false := by
        intro x hx
        rcases List.mem_append.mp hx with h3 | h3
        · exact h x h3
        · simp only [List.mem_singleton] at h3
          subst h3
          exact hcond.2
      split at hc
      · exact h2 c hc
      · exact ih _ h2 c hc
    · simp only [if_neg hcond] at hc
      split at hc
      · exact h c hc
      · exact ih acc h c hc

theorem pickDefaults_nodup (k : Nat) (l : List Char) :
    ∀ acc : List Char, acc.Nodup → (pickDefaults k acc l).Nodup := by
  induction l with
  | nil => intro acc h; simpa [pickDefaults] using h
  | cons c0 rest ih =>
    intro acc h
    simp only [pickDefaults]
    by_cases hcond : c0 ∉ acc ∧ isTerm c0 = false
    · simp only [if_pos hcond]
      have h2 : (acc ++ [c0]).Nodup := by simp [List.nodup_append, h, hcond.1]
      split
      · exact h2
      · exact ih _ h2
    · simp only [if_neg hcond]
      split
      · exact h
      · exact ih acc h

theorem guessesWithDefaults_noTerm (m : Model) (text : String) (k : Nat) :
    ∀ c ∈ guessesWithDefaults m text k, isTerm c = false := by
  intro c hc
  simp only [guessesWithDefaults] at hc
  have hg : ∀ x ∈ guessesScored m text k, isTerm x = false :=
    pickScored_noTerm k _ [] (by simp)
  split at hc
  · exact pickDefaults_noTerm k _ _ hg c hc
  · exact hg c hc

theorem guessesWithDefaults_nodup (m : Model) (text : String) (k : Nat) :
    (guessesWithDefaults m text k).Nodup := by
  simp only [guessesWithDefaults]
  have hg : (guessesScored m text k).Nodup := pickScored_nodup k _ [] (by simp)
  split
  · exact pickDefaults_nodup k _ _ hg
  · exact hg

/-! ### Claim C1 -/

/-- C1 (amended): `predict_top_k(prefix, k)` returns exactly `k`
characters, none of which is a line terminator; the `k` characters are
pairwise distinct whenever the pool of scored plus fallback characters
reaches `k` (i.e. whenever no space padding is needed) — the claim's
unconditional distinctness fails once the final `while` loop pads with
repeated spaces. -/
theorem c1_predict_top_k_shape (m : Model) (text : String) (k : Nat) :
    (predict_top_k m text k).length = k ∧
    (∀ c ∈ predict_top_k m text k, isTerm c = false) ∧
    (k ≤ (guessesWithDefaults m text k).length → (predict_top_k m text k).Nodup) := by
  refine ⟨?_, ?_, ?_⟩
  · simp only [predict_top_k, List.length_take, List.length_append, List.length_replicate]
    omega
  · intro c hc
    simp only [predict_top_k] at hc
    have hc2 := List.mem_of_mem_take hc
    rcases List.mem_append.mp hc2 with h1 | h1
    · exact guessesWithDefaults_noTerm m text k c h1
    · have hsp : c = ' ' := List.eq_of_mem_replicate h1
      subst hsp
      decide
  · intro hk
    simp only [predict_top_k]
    rw [Nat.sub_eq_zero_of_le hk]
    simp only [List.replicate_zero, List.append_nil]
    exact (List.take_sublist _ _).nodup (guessesWithDefaults_nodup m text k)

/-- C1 counterexample: on a freshly constructed model (nine fallback
characters, led by a space) with the empty prefix and `k = 10`, the
space-padding loop appends a second space, so the result is not pairwise
distinct. -/
theorem c1_counterexample : ¬ (predict_top_k initModel "" 10).Nodup := by decide

/-- Witness for `c1_predict_top_k_shape` at a concrete input. -/
theorem c1_witness :
    (predict_top_k initModel "" 3).length = 3 ∧
    (∀ c ∈ predict_top_k initModel "" 3, isTerm c = false) ∧
    (predict_top_k initModel "" 3).Nodup := by
  have h := c1_predict_top_k_shape initModel "" 3
  exact ⟨h.1, h.2.1, h.2.2 (by decide)⟩

/-! ### Claim C2 -/

/-- C2 (amended): after `_trim_context_tables`, the table has at most
`max_contexts` entries when that cap is positive, every surviving entry
holds at most `max_chars_per_context` next-characters, and every
surviving context had total count at least `min_context_count` **in the
pre-trim table** (the claim's reading of the totals in the trimmed table
fails, since the per-context truncation can lower a total below the
threshold). -/
theorem c2_trim_invariants (minC maxCtx maxChars : Int) (tbl : Table) :
    (0 < maxCtx → ((trimTable minC maxCtx maxChars tbl).length : Int) ≤ maxCtx) ∧
    (∀ p ∈ trimTable minC maxCtx maxChars tbl, (p.2.length : Int) ≤ maxChars) ∧
    (∀ p ∈ trimTable minC maxCtx maxChars tbl, ∃ cs0, (p.1, cs0) ∈ tbl ∧ minC ≤ totalOf cs0) := by
  refine ⟨?_, ?_, ?_⟩
  · intro hpos
    simp only [trimTable, if_pos hpos]
    have h1 := List.length_filterMap_le
      (fun (p : List Char × Entry) =>
        if mostCommon maxChars p.2 = [] then none else some (p.1, mostCommon maxChars p.2))
      ((sortDesc (fun p => totalOf p.2)
        (tbl.filter (fun p => decide (minC ≤ totalOf p.2)))).take maxCtx.toNat)
    have h2 := List.length_take_le maxCtx.toNat
      (sortDesc (fun p => totalOf p.2) (tbl.filter (fun p => decide (minC ≤ totalOf p.2))))
    omega
  · intro p hp
    simp only [trimTable] at hp
    rcases List.mem_filterMap.mp hp with ⟨q, _, hfq⟩
    split at hfq
    · cases hfq
    · rename_i hne
      cases hfq
      have h1 : (mostCommon maxChars q.2).length ≤ maxChars.toNat := by
        simp only [mostCommon]
        exact List.length_take_le _ _
      have h2 : 0 < (mostCommon maxChars q.2).length :=
        List.length_pos.mpr hne
      show ((mostCommon maxChars q.2).length : Int) ≤ maxChars
      omega
  · intro p hp
    simp only [trimTable] at hp
    rcases List.mem_filterMap.mp hp with ⟨q, hq, hfq⟩
    have hqs : q ∈ sortDesc (fun (p : List Char × Entry) => totalOf p.2)
        (tbl.filter (fun p => decide (minC ≤ totalOf p.2))) := by
      split at hq
      · exact List.mem_of_mem_take hq
      · exact hq
    have hqr := (sortDesc_perm (fun (p : List Char × Entry) => totalOf p.2) _).mem_iff.mp hqs
    have hmem := (List.mem_filter.mp hqr).1
    have htot : minC ≤ totalOf q.2 := of_decide_eq_true (List.mem_filter.mp hqr).2
    split at hfq
    · cases hfq
    · cases hfq
      exact ⟨q.2, hmem, htot⟩

/-- C2 counterexample: trimming `{"x": {a:1, b:1, c:1}}` with
`min_context_count = 3` and `max_chars_per_context = 1` keeps `"x"` (its
pre-trim total is 3) but truncates it to `{a:1}`, so the surviving
context's total in the trimmed table is 1 < 3. -/
theorem c2_counterexample :
    ¬ (∀ p ∈ trimTable 3 10 1 [(['x'], [('a', 1), ('b', 1), ('c', 1)])],
        3 ≤ totalOf p.2) := by decide

/-- Witness for `c2_trim_invariants` at a concrete input. -/
theorem c2_witness :
    ((trimTable 3 10 1 [(['x'], [('a', 1), ('b', 1), ('c', 1)])]).length : Int) ≤ 10 ∧
    (((['x'], [('a', 1)]) : List Char × Entry).2.length : Int) ≤ 1 ∧
    (∃ cs0, (['x'], cs0) ∈ ([(['x'], [('a', 1), ('b', 1), ('c', 1)])] : Table) ∧
      3 ≤ totalOf cs0) := by
  have h := c2_trim_invariants 3 10 1 [(['x'], [('a', 1), ('b', 1), ('c', 1)])]
  exact ⟨h.1 (by decide), h.2.1 (['x'], [('a', 1)]) (by decide),
    h.2.2 (['x'], [('a', 1)]) (by decide)⟩

/-! ### Claim C6 -/

/-- C6: divergence between the model's trim and the pruning utility on a
non-positive `max_contexts`.  `_trim_context_tables` guards the cap with
`if self.max_contexts > 0` and keeps every context, while
`prune_checkpoint.py` applies the unguarded slice `ranked[:max_contexts]`,
which for `max_contexts = 0` drops every context (and for a negative
value drops contexts from the end of the ranking). -/
theorem c6_prune_cap_divergence :
    trimTable 1 0 10 [(['a'], [('b', 5)])] = [(['a'], [('b', 5)])] ∧
    prunePayload 1 0 10 [(['a'], [('b', 5)])] = [] ∧
    prunePayload 1 (-1) 10 [(['a'], [('b', 5)]), (['c'], [('d', 4)])]
      = [(['a'], [('b', 5)])] := by decide

/-! ### Claim C7 -/

/-- C7 counterexample: with `ngram_order = 3` the contexts materialized by
`fit` have length at most 2, so no entry for the three-character context
`"he "` exists after fitting on `["the cat", "the dog", "the bat"]`. -/
theorem c7_counterexample :
    getA (fit { initModel with ngram_order := 3 }
        ["the cat", "the dog", "the bat"]).context_counts "he ".toList = none := by
  decide

/-- C7 (amended): the two-character context before the differing letter is
`"e "`, and fitting on `["the cat", "the dog", "the bat"]` with order 3
creates the entry `{c:1, d:1, b:1}` for it; the unigram table records
`'t'` with count 5 ≥ 3. -/
theorem c7_fit_scenario :
    getA (fit { initModel with ngram_order := 3 }
        ["the cat", "the dog", "the bat"]).context_counts "e ".toList
      = some [('c', 1), ('d', 1), ('b', 1)] ∧
    ∃ n, getA (fit { initModel with ngram_order := 3 }
        ["the cat", "the dog", "the bat"]).unigram 't' = some n ∧ 3 ≤ n := by
  refine ⟨by decide, 5, by decide, by norm_num⟩

/-! ### Claim C9 -/

/-- C9 (confirmed): `load` is total on payloads, and every absent field is
substituted with its named default (`payload.get(key, default)`): order 6,
alpha 1.0, per-context cap 64, minimum count 3, context cap 1000000,
discount 0.75, empty tables, zero bigram types, and the constructor's
fallback character list. -/
theorem c9_load_defaults (p : Payload) :
    (p.ngram_order = none → (load p).ngram_order = 6) ∧
    (p.laplace_alpha = none → (load p).laplace_alpha = 1) ∧
    (p.max_chars_per_context = none → (load p).max_chars_per_context = 64) ∧
    (p.min_context_count = none → (load p).min_context_count = 3) ∧
    (p.max_contexts = none → (load p).max_contexts = 1000000) ∧
    (p.kn_discount = none → (load p).kn_discount = 3 / 4) ∧
    (p.context_counts = none → (load p).context_counts = []) ∧
    (p.unigram = none → (load p).unigram = []) ∧
    (p.continuation_counts = none → (load p).continuation_counts = []) ∧
    (p.total_bigram_types = none → (load p).total_bigram_types = 0) ∧
    (p.default_chars = none → (load p).default_chars = initDefaultChars) := by
  refine ⟨?_, ?_, ?_, ?_, ?_, ?_, ?_, ?_, ?_, ?_, ?_⟩ <;>
    intro h <;> simp [load, h]

/-- Witness for `c9_load_defaults`: loading the payload with every field
absent yields every documented default. -/
theorem c9_witness :
    (load emptyPayload).ngram_order = 6 ∧
    (load emptyPayload).laplace_alpha = 1 ∧
    (load emptyPayload).max_chars_per_context = 64 ∧
    (load emptyPayload).min_context_count = 3 ∧
    (load emptyPayload).max_contexts = 1000000 ∧
    (load emptyPayload).kn_discount = 3 / 4 ∧
    (load emptyPayload).context_counts = [] ∧
    (load emptyPayload).unigram = [] ∧
    (load emptyPayload).continuation_counts = [] ∧
    (load emptyPayload).total_bigram_types = 0 ∧
    (load emptyPayload).default_chars = initDefaultChars := by
  have h := c9_load_defaults emptyPayload
  exact ⟨h.1 rfl, h.2.1 rfl, h.2.2.1 rfl, h.2.2.2.1 rfl, h.2.2.2.2.1 rfl,
    h.2.2.2.2.2.1 rfl, h.2.2.2.2.2.2.1 rfl, h.2.2.2.2.2.2.2.1 rfl,
    h.2.2.2.2.2.2.2.2.1 rfl, h.2.2.2.2.2.2.2.2.2.1 rfl, h.2.2.2.2.2.2.2.2.2.2 rfl⟩

/-! ### Claim C4 -/

theorem load_save (m : Model) (h : (m.context_counts.map Prod.fst).Nodup) :
    load (save m) = m := by
  obtain ⟨o, a, mc, mn, mx, kd, cc, ug, ct, tb, dc⟩ := m
  simp only [save, load, Option.getD_some]
  rw [foldl_setA_gen cc [] h (by simp)]
  simp

/-- C4 (confirmed): saving and loading reconstructs the model exactly
(every trained model's context table has unique dict keys, the stated
hypothesis), hence `predict_top_k` agrees on every prefix and `k`. -/
theorem c4_roundtrip (m : Model) (h : (m.context_counts.map Prod.fst).Nodup) :
    load (save m) = m ∧
    ∀ (text : String) (k : Nat),
      predict_top_k (load (save m)) text k = predict_top_k m text k := by
  have he := load_save m h
  exact ⟨he, fun text k => by rw [he]⟩

/-- Witness for `c4_roundtrip` on a concrete trained model. -/
theorem c4_witness :
    load (save (fit initModel ["abc"])) = fit initModel ["abc"] ∧
    predict_top_k (load (save (fit initModel ["abc"]))) "a" 3
      = predict_top_k (fit initModel ["abc"]) "a" 3 := by
  have h := c4_roundtrip (fit initModel ["abc"]) (by decide)
  exact ⟨h.1, h.2 "a" 3⟩

/-! ### Claim C8 -/

/-- C8 (confirmed): `predict_batch` returns one string per input in input
order; an input whose scoring raises (an `.error` scorer result) gets the
fallback characters padded to length `k`, and every input whose scoring
succeeds as `predict_top_k` does gets exactly that result. -/
theorem c8_predict_batch_isolation (m : Model) (score : String → Except Unit (List Char))
    (inputs : List String) (k : Nat) (j : Nat) :
    (predictBatchWith m score inputs k).length = inputs.length ∧
    (∀ i line, inputs.get? i = some line → i ≠ j →
      score line = .ok (predict_top_k m line k) →
      (predictBatchWith m score inputs k).get? i
        = some (String.mk (predict_top_k m line k))) ∧
    (∀ e line, inputs.get? j = some line → score line = .error e →
      (predictBatchWith m score inputs k).get? j
        = some (String.mk (fallbackGuess m k))) := by
  refine ⟨by simp [predictBatchWith], ?_, ?_⟩
  · intro i line hline _ hsc
    simp only [predictBatchWith, List.get?_map, hline, Option.map_some']
    rw [hsc]
  · intro e line hline herr
    simp only [predictBatchWith, List.get?_map, hline, Option.map_some']
    rw [herr]

/-- Witness for `c8_predict_batch_isolation`: a three-input batch whose
middle input's scoring raises produces the fallback string exactly there
and `predict_top_k` results elsewhere, in order. -/
theorem c8_witness :
    (predictBatchWith initModel
        (fun s => if s = "b" then .error () else .ok (predict_top_k initModel s 2))
        ["a", "b", "c"] 2).length = 3 ∧
    (predictBatchWith initModel
        (fun s => if s = "b" then .error () else .ok (predict_top_k initModel s 2))
        ["a", "b", "c"] 2).get? 0 = some (String.mk (predict_top_k initModel "a" 2)) ∧
    (predictBatchWith initModel
        (fun s => if s = "b" then .error () else .ok (predict_top_k initModel s 2))
        ["a", "b", "c"] 2).get? 1 = some (String.mk (fallbackGuess initModel 2)) := by
  have h := c8_predict_batch_isolation initModel
    (fun s => if s = "b" then .error () else .ok (predict_top_k initModel s 2))
    ["a", "b", "c"] 2 1
  exact ⟨h.1, h.2.1 0 "a" rfl (by decide) rfl, h.2.2 () "b" rfl rfl⟩

/-! ### Claim C10 -/

theorem ctxStepS_eq (D : ℚ) (seq : List Char) (t : Table) (sc : Scores) (L : Nat) :
    ctxStepS D seq (t, sc) L = (t, ctxStep t D seq L sc) := by
  cases h : getA t (seq.drop (seq.length - L)) with
  | none => simp [ctxStepS, dictGet, ctxStep, h]
  | some e => simp [ctxStepS, dictGet, ctxStep, h]

theorem predictTopKS_eq (m : Model) (text : String) (k : Nat) :
    predictTopKS m text k = (m, predict_top_k m text k) := by
  have hfold : ∀ (l : List Nat) (t : Table) (sc : Scores),
      l.foldl (fun st i => ctxStepS m.kn_discount (normalize_text text) st (i + 1)) (t, sc)
      = (t, l.foldl (fun sc i =>
          ctxStep t m.kn_discount (normalize_text text) (i + 1) sc) sc) := by
    intro l
    induction l with
    | nil => intro t sc; rfl
    | cons i is ih =>
      intro t sc
      simp only [List.foldl_cons, ctxStepS_eq, ih]
  simp only [predictTopKS, hfold]
  rfl

/-- C10 (confirmed): neither `predict_top_k` nor `predict_batch` mutates
the model: with the model state threaded through every table access (the
context-table reads are plain `.get` lookups, which unlike
`defaultdict.__getitem__` insert nothing), the state returned is the
input model, and the computed predictions are the pure functions'. -/
theorem c10_predict_readonly (m : Model) (text : String) (k : Nat) (inputs : List String) :
    predictTopKS m text k = (m, predict_top_k m text k) ∧
    predictBatchS m inputs k = (m, predict_batch m inputs k) := by
  refine ⟨predictTopKS_eq m text k, ?_⟩
  have hgen : ∀ (l : List String) (acc : List String),
      l.foldl (fun (st : Model × List String) line =>
        let r := predictTopKS st.1 line k
        (r.1, st.2 ++ [String.mk r.2])) (m, acc)
      = (m, acc ++ l.map (fun line => String.mk (predict_top_k m line k))) := by
    intro l
    induction l with
    | nil => intro acc; simp
    | cons s rest ih =>
      intro acc
      simp only [List.foldl_cons, predictTopKS_eq m s k, List.map_cons]
      rw [ih (acc ++ [String.mk (predict_top_k m s k)])]
      simp
  simpa [predictBatchS, predict_batch, predictBatchWith] using hgen inputs []

/-! ### Claim C5 -/

/-- The claim's level map, following the claim's words literally: *each
stored character* `c` is scored `max(count[c] − D, 0) / total`. -/
def specLevelClaim (D : ℚ) (e : Entry) : Scores :=
  e.map (fun p => (p.1, max ((p.2 : ℚ) - D) 0 / (totalOf e : ℚ)))

/-- The level map as the code builds it: line terminators are excluded
(though they still contribute to `total` and `n_types`). -/
def specLevel (D : ℚ) (e : Entry) : Scores :=
  (e.filter (fun p => !(isTerm p.1))).map
    (fun p => (p.1, max ((p.2 : ℚ) - D) 0 / (totalOf e : ℚ)))

/-- The union of the characters of the level map and of the previous
score vector. -/
def unionChars (level sc : Scores) : List Char :=
  level.map Prod.fst ++ (sc.map Prod.fst).filter (fun c => !((level.map Prod.fst).contains c))

/-- `blended[c] = level[c] + λ · previous[c]` over the union of
characters, as the spec words it. -/
def specBlendWith (level : Scores) (lam : ℚ) (sc : Scores) : Scores :=
  (unionChars level sc).map (fun c => (c, getQ level c + lam * getQ sc c))

/-- The claim's blend, with every stored character scored in the level. -/
def specBlendClaim (D : ℚ) (e : Entry) (sc : Scores) : Scores :=
  specBlendWith (specLevelClaim D e) (D * (e.length : ℚ) / (totalOf e : ℚ)) sc

/-- The amended blend: level map without line terminators. -/
def specBlend (D : ℚ) (e : Entry) (sc : Scores) : Scores :=
  specBlendWith (specLevel D e) (D * (e.length : ℚ) / (totalOf e : ℚ)) sc

theorem foldl_skip_term (f : Char × Int → ℚ) (e : Entry) :
    ∀ init : Scores,
      e.foldl (fun lv p => if isTerm p.1 then lv else setA lv p.1 (f p)) init
        = (e.filter (fun p => !(isTerm p.1))).foldl (fun lv p => setA lv p.1 (f p)) init := by
  induction e with
  | nil => intro init; rfl
  | cons p r ih =>
    intro init
    by_cases ht : isTerm p.1 = true
    · simp [List.filter_cons, ht, ih]
    · simp only [Bool.not_eq_true] at ht
      simp [List.filter_cons, ht, ih]

theorem foldl_level_eq (e : Entry) (f : Char × Int → ℚ) (h : (e.map Prod.fst).Nodup) :
    e.foldl (fun lv p => if isTerm p.1 then lv else setA lv p.1 (f p)) []
      = (e.filter (fun p => !(isTerm p.1))).map (fun p => (p.1, f p)) := by
  rw [foldl_skip_term f e []]
  rw [← List.foldl_map (fun p => (p.1, f p)) (fun (t : Scores) q => setA t q.1 q.2)]
  rw [foldl_setA_gen _ []]
  · simp
  · have hsub : List.Sublist ((e.filter (fun p => !(isTerm p.1))).map Prod.fst)
        (e.map Prod.fst) := (List.filter_sublist e).map Prod.fst
    have h2 := hsub.nodup h
    simpa [List.map_map, Function.comp_def] using h2
  · simp

theorem foldl_union_eq (u : List Char) (f : Char → ℚ) (h : u.Nodup) :
    u.foldl (fun b c => setA b c (f c)) [] = u.map (fun c => (c, f c)) := by
  rw [← List.foldl_map (fun c => (c, f c)) (fun (t : Scores) q => setA t q.1 q.2)]
  rw [foldl_setA_gen _ []]
  · simp
  · simpa [List.map_map, Function.comp_def] using h
  · simp

theorem specLevel_keys (D : ℚ) (e : Entry) :
    (specLevel D e).map Prod.fst = (e.filter (fun p => !(isTerm p.1))).map Prod.fst := by
  simp [specLevel, List.map_map, Function.comp_def]

theorem unionChars_nodup (level sc : Scores) (hl : (level.map Prod.fst).Nodup)
    (hs : (sc.map Prod.fst).Nodup) : (unionChars level sc).Nodup := by
  rw [unionChars, List.nodup_append]
  refine ⟨hl, (List.filter_sublist _).nodup hs, ?_⟩
  intro a ha hb
  have h2 := (List.mem_filter.mp hb).2
  simp only [Bool.not_eq_true'] at h2
  have h3 : a ∉ level.map Prod.fst := by simp_all
  exact h3 ha

/-- C5 (amended): one context-length step of `predict_top_k`: a missing
context leaves the score vector unchanged; a stored nonempty entry with
positive counts replaces the vector by the blend
`blended[c] = level[c] + λ · previous[c]` over the union of level and
previous characters, where `level` scores every stored character **that
is not a line terminator** as `max(count − D, 0)/total` (terminators are
excluded from the level map but still counted in `total` and `n_types`)
and `λ = D · n_types / total`. -/
theorem c5_backoff_step (tbl : Table) (D : ℚ) (seq : List Char) (L : Nat) (sc : Scores) :
    (getA tbl (seq.drop (seq.length - L)) = none → ctxStep tbl D seq L sc = sc) ∧
    (∀ e, getA tbl (seq.drop (seq.length - L)) = some e → e ≠ [] →
      (∀ p ∈ e, 1 ≤ p.2) → (e.map Prod.fst).Nodup → (sc.map Prod.fst).Nodup →
      ctxStep tbl D seq L sc = specBlend D e sc) := by
  constructor
  · intro h
    simp [ctxStep, h]
  · intro e hsome hne hpos hek hsk
    have hstep : ctxStep tbl D seq L sc = knStep D e sc := by simp [ctxStep, hsome]
    rw [hstep]
    have htot : 0 < totalOf e := totalOf_pos hne hpos
    simp only [knStep, if_neg hne, if_neg (not_le.mpr htot)]
    rw [foldl_level_eq e (fun p => max ((p.2 : ℚ) - D) 0 / (totalOf e : ℚ)) hek]
    have hlv : (e.filter (fun p => !(isTerm p.1))).map
        (fun p => (p.1, max ((p.2 : ℚ) - D) 0 / (totalOf e : ℚ))) = specLevel D e := rfl
    rw [hlv]
    have hun : (specLevel D e).map Prod.fst
          ++ (sc.map Prod.fst).filter (fun c => !(((specLevel D e).map Prod.fst).contains c))
        = unionChars (specLevel D e) sc := rfl
    rw [hun]
    have hnd : (unionChars (specLevel D e) sc).Nodup := by
      apply unionChars_nodup _ _ _ hsk
      rw [specLevel_keys]
      exact ((List.filter_sublist e).map Prod.fst).nodup hek
    rw [foldl_union_eq _ _ hnd]
    rfl

/-- C5 counterexample: for a stored context holding a newline
(`{"\n": 5, "b": 1}`), the claim's blend scores the newline
`max(5 − D, 0)/6`, but the code's loop body excludes line terminators
from the level map, so the newline is absent from the resulting vector. -/
theorem c5_counterexample :
    getA (ctxStep [(['a'], [('\n', 5), ('b', 1)])] (3 / 4) ['a'] 1 []) '\n'
      ≠ getA (specBlendClaim (3 / 4) [('\n', 5), ('b', 1)] []) '\n' := by decide

/-- Witness for `c5_backoff_step` at a concrete table, entry and score
vector. -/
theorem c5_witness :
    ctxStep [(['a'], [('b', 2), ('c', 1)])] (3 / 4) ['a'] 1 [('d', 1 / 2)]
      = specBlend (3 / 4) [('b', 2), ('c', 1)] [('d', 1 / 2)] ∧
    ctxStep [(['a'], [('b', 2), ('c', 1)])] (3 / 4) ['x'] 1 [('d', 1 / 2)]
      = [('d', 1 / 2)] := by
  have h := c5_backoff_step [(['a'], [('b', 2), ('c', 1)])] (3 / 4) ['a'] 1 [('d', 1 / 2)]
  have h2 := c5_backoff_step [(['a'], [('b', 2), ('c', 1)])] (3 / 4) ['x'] 1 [('d', 1 / 2)]
  exact ⟨h.2 [('b', 2), ('c', 1)] (by decide) (by decide) (by decide) (by decide) (by decide),
    h2.1 (by decide)⟩

/-! ### Claim C3 -/

/-- Equality of optional context entries as Python dicts: same presence,
and equal counts under lookup. -/
def entriesEquiv (o1 o2 : Option Entry) : Prop :=
  match o1, o2 with
  | none, none => True
  | some e1, some e2 => ∀ c, getA e1 c = getA e2 c
  | _, _ => False

/-- Equality of context tables as Python dicts of dicts: every context is
present in one iff in the other, with equal counts. -/
def tableEquiv (t1 t2 : Table) : Prop :=
  ∀ ctx, entriesEquiv (getA t1 ctx) (getA t2 ctx)

theorem filterMap_some_eq_map {α β : Type} {l : List α} {g : α → Option β} {f : α → β}
    (h : ∀ a ∈ l, g a = some (f a)) : l.filterMap g = l.map f := by
  induction l with
  | nil => rfl
  | cons a r ih =>
    rw [List.filterMap_cons, h a (by simp), List.map_cons,
      ih (fun a ha => h a (by simp [ha]))]

theorem mostCommon_all {maxChars : Int} {e : Entry} (hne : e ≠ [])
    (hch : (e.length : Int) ≤ maxChars) :
    mostCommon maxChars e = sortDesc (fun p => p.2) e := by
  have hlen : (sortDesc (fun (p : Char × Int) => p.2) e).length = e.length :=
    (sortDesc_perm (fun p => p.2) e).length_eq
  have hpos : 0 < e.length := List.length_pos.mpr hne
  apply List.take_of_length_le
  omega

theorem mostCommon_all_ne_nil {maxChars : Int} {e : Entry} (hne : e ≠ [])
    (hch : (e.length : Int) ≤ maxChars) : mostCommon maxChars e ≠ [] := by
  rw [mostCommon_all hne hch]
  have hlen : (sortDesc (fun (p : Char × Int) => p.2) e).length = e.length :=
    (sortDesc_perm (fun p => p.2) e).length_eq
  have hpos : 0 < e.length := List.length_pos.mpr hne
  exact List.length_pos.mp (by omega)

/-- C3 (amended): re-trimming an already-trimmed table leaves it
unchanged as a mapping, provided the new parameters are genuinely no
stricter for the table at hand: every entry's (post-truncation) total
still reaches the new `min_context_count`, every entry fits in the new
`max_chars_per_context`, and the new `max_contexts` is non-positive (no
cap) or at least the number of entries.  The claim's unqualified version
fails because truncation can push a surviving context's total below
`min_context_count`, so re-trimming with the *same* parameters can drop
it. -/
theorem c3_trim_idempotent (minC maxCtx maxChars : Int) (T : Table)
    (hkeys : (T.map Prod.fst).Nodup)
    (hck : ∀ p ∈ T, (p.2.map Prod.fst).Nodup)
    (hne : ∀ p ∈ T, p.2 ≠ [])
    (hmin : ∀ p ∈ T, minC ≤ totalOf p.2)
    (hchars : ∀ p ∈ T, (p.2.length : Int) ≤ maxChars)
    (hcap : maxCtx ≤ 0 ∨ (T.length : Int) ≤ maxCtx) :
    tableEquiv (trimTable minC maxCtx maxChars T) T := by
  have hfil : T.filter (fun p => decide (minC ≤ totalOf p.2)) = T :=
    List.filter_eq_self.mpr (fun a ha => decide_eq_true (hmin a ha))
  have hperm : List.Perm (sortDesc (fun (p : List Char × Entry) => totalOf p.2) T) T :=
    sortDesc_perm _ T
  have hcapped : (if 0 < maxCtx then
        (sortDesc (fun (p : List Char × Entry) => totalOf p.2) T).take maxCtx.toNat
      else sortDesc (fun (p : List Char × Entry) => totalOf p.2) T)
      = sortDesc (fun (p : List Char × Entry) => totalOf p.2) T := by
    split
    · rename_i hpos
      apply List.take_of_length_le
      have := hperm.length_eq
      rcases hcap with h | h
      · omega
      · omega
    · rfl
  have htrim : trimTable minC maxCtx maxChars T
      = (sortDesc (fun (p : List Char × Entry) => totalOf p.2) T).map
          (fun p => (p.1, mostCommon maxChars p.2)) := by
    simp only [trimTable, hfil, hcapped]
    apply filterMap_some_eq_map
    intro p hp
    have hpT : p ∈ T := hperm.mem_iff.mp hp
    rw [if_neg (mostCommon_all_ne_nil (hne p hpT) (hchars p hpT))]
  intro ctx
  rw [htrim, getA_map_snd (mostCommon maxChars), getA_eq_of_perm hperm hkeys ctx]
  cases hget : getA T ctx with
  | none => exact trivial
  | some cs =>
    have hmem : (ctx, cs) ∈ T := getA_some_mem hget
    have hcs : mostCommon maxChars cs = sortDesc (fun p => p.2) cs :=
      mostCommon_all (hne _ hmem) (hchars _ hmem)
    simp only [Option.map_some', entriesEquiv, hcs]
    intro c
    exact getA_eq_of_perm (sortDesc_perm _ cs) (hck _ hmem) c

/-- C3 counterexample: with `min_context_count = 3` and
`max_chars_per_context = 1`, trimming `{"x": {a:1, b:1, c:1}}` yields
`{"x": {a:1}}`, and re-trimming with the *same* parameters drops `"x"`
(its truncated total 1 is now below 3), so trimming is not idempotent. -/
theorem c3_counterexample :
    trimTable 3 10 1 (trimTable 3 10 1 [(['x'], [('a', 1), ('b', 1), ('c', 1)])])
      ≠ trimTable 3 10 1 [(['x'], [('a', 1), ('b', 1), ('c', 1)])] := by decide

/-- Witness for `c3_trim_idempotent` at a concrete already-trimmed
table. -/
theorem c3_witness :
    tableEquiv (trimTable 2 5 3 [(['a'], [('b', 2)]), (['c'], [('d', 3)])])
      [(['a'], [('b', 2)]), (['c'], [('d', 3)])] :=
  c3_trim_idempotent 2 5 3 [(['a'], [('b', 2)]), (['c'], [('d', 3)])]
    (by decide) (by decide) (by decide) (by decide) (by decide) (Or.inr (by decide))

end NGram
